import Mathlib

/-!
# Verification of the UniProtKB paginated query client

A shallow embedding of `src/uniprot_conn.py` (class `UniProtKBAPIConnection`).
The embedding models:

* `get_next_link` (lines 47-55): anchored regex match of `<(.+)>; rel="next"`
  against the `Link` header, with a greedy capture group;
* `get_batch` (lines 57-71): the pagination loop, embedded as a single
  fuel-indexed step/run function (`get_batch_step` / `runBatch`) since the
  Python generator may loop forever;
* `query._query` (lines 82-96): URL building from the parameter dict and the
  accumulation of each page's parsed rows (`query_url`, `query_go`);
* the urllib3 `Retry` transport mounted in `_connect` (lines 31, 38-45),
  embedded as `retry_get` / `transport`.

HTTP responses are triples (status, headers, body text).  Header lookup is
modelled case-sensitively (the HTTP layer normalizes header-name case; the
claims only exercise exact-case headers).  Exceptions are modelled by
`Except`/option-style results: `raise_for_status` raises exactly for
status codes in [400, 600), a missing `x-total-results` header raises
`KeyError`, and any exception inside the loop body is caught by the
`except` clause and breaks the loop.
-/

set_option autoImplicit false

namespace UniProt

/-- First-match association-list lookup, modelling Python `dict` access
(`headers["Link"]`, `"Link" in headers`). -/
def lookupKV : List (String × String) → String → Option String
  | [], _ => none
  | (k, v) :: rest, key => if k = key then some v else lookupKV rest key

/-- Split a character list at every occurrence of `sep`; mirrors Python
`str.split(sep)` for a one-character separator (and `String.splitOn`). -/
def splitOnChar (sep : Char) : List Char → List (List Char)
  | [] => [[]]
  | c :: cs =>
    let r := splitOnChar sep cs
    if c = sep then [] :: r
    else
      match r with
      | [] => [[c]]
      | x :: xs => (c :: x) :: xs

/-- Join character lists with a separator character; mirrors Python
`sep.join(...)`. -/
def intercalateChar (sep : Char) : List (List Char) → List Char
  | [] => []
  | [x] => x
  | x :: xs => x ++ sep :: intercalateChar sep xs

/-- `startsWith pat l` is true when `pat` is an initial segment of `l`. -/
def startsWith : List Char → List Char → Bool
  | [], _ => true
  | _ :: _, [] => false
  | p :: ps, c :: cs => if p = c then startsWith ps cs else false

/-- The fixed literal part of `LINK_REGEX = re.compile(r'<(.+)>; rel="next"')`
that follows the capture group. -/
def linkSuffix : List Char := ">; rel=\"next\"".data

/-- The greedy capture group `(.+)` of `LINK_REGEX`, applied after the
leading `<`: returns the longest nonempty newline-free segment `u` such
that `u` is followed immediately by `linkSuffix` (`re.match` only anchors
at the start, so arbitrary text may follow the matched part). -/
def capture : List Char → Option (List Char)
  | [] => none
  | c :: cs =>
    if c = '\n' then none
    else
      match capture cs with
      | some u => some (c :: u)
      | none => if startsWith linkSuffix cs then some [c] else none

/-- Specification-side reading of one match of `(.+)>; rel="next"` inside a
header value: after the leading `<`, the characters `cs` start with a
nonempty, newline-free segment `u` followed immediately by the literal
`>; rel="next"`, with arbitrary trailing content. -/
def linkCapture (cs u : List Char) : Prop :=
  u ≠ [] ∧ '\n' ∉ u ∧ ∃ rest, cs = u ++ linkSuffix ++ rest

/-- `get_next_link` (source lines 47-55): if the `Link` header is present,
match `LINK_REGEX` at the start of its value and return capture group 1. -/
def get_next_link (headers : List (String × String)) : Option String :=
  match lookupKV headers "Link" with
  | none => none
  | some v =>
    match v.data with
    | '<' :: rest => (capture rest).map String.mk
    | _ => none

instance {ε α : Type} [DecidableEq ε] [DecidableEq α] : DecidableEq (Except ε α) :=
  fun x y =>
    match x, y with
    | .ok a, .ok b =>
      if h : a = b then .isTrue (by rw [h]) else .isFalse (fun hc => h (Except.ok.inj hc))
    | .error a, .error b =>
      if h : a = b then .isTrue (by rw [h]) else .isFalse (fun hc => h (Except.error.inj hc))
    | .ok _, .error _ => .isFalse (fun hc => Except.noConfusion hc)
    | .error _, .ok _ => .isFalse (fun hc => Except.noConfusion hc)

/-- An HTTP response as seen by the client: status code, headers, body text. -/
structure Response where
  status : Nat
  headers : List (String × String)
  text : String
deriving DecidableEq

/-- Result of one `self._instance.get(batch_url)` call as seen above the
retry-mounted transport: either a response, or an exception (connection
failure / retries exhausted). -/
inductive FetchOutcome where
  | ok (r : Response)
  | exn
deriving DecidableEq

/-- `response.raise_for_status()` raises exactly for 4xx and 5xx codes. -/
def raise_for_status_raises (status : Nat) : Bool :=
  decide (400 ≤ status) && decide (status < 600)

/-- What one iteration of the `get_batch` loop body (source lines 62-71)
does at URL `u`: either yields `(response, total)` and continues with the
next URL, or an exception occurs somewhere in the `try` block and the
`except` clause breaks the loop. -/
inductive StepOut where
  | yield (r : Response) (total : String) (next : Option String)
  | halt
deriving DecidableEq

/-- One iteration of the `get_batch` loop at URL `u`: `halt` when the GET
raises, when `raise_for_status` raises, or when the `x-total-results`
header is missing (`KeyError`); otherwise yield the page and move to
`get_next_link` of the response headers. -/
def get_batch_step (server : String → FetchOutcome) (u : String) : StepOut :=
  match server u with
  | .exn => .halt
  | .ok r =>
    if raise_for_status_raises r.status then .halt
    else
      match lookupKV r.headers "x-total-results" with
      | none => .halt
      | some t => .yield r t (get_next_link r.headers)

/-- Observable outcome of running the `get_batch` loop for a bounded number
of iterations: the pages yielded, the number of GET requests issued, and
`remaining = some u` exactly when the fuel ran out while the loop was still
in the FETCHING state (so `remaining = none` means the loop terminated). -/
structure BatchRun where
  pages : List (Response × String)
  requests : Nat
  remaining : Option String
deriving DecidableEq

/-- Run the `get_batch` loop (source lines 62-71) for at most `fuel`
iterations, starting from `cur` (`none` models a falsy `batch_url`). -/
def runBatch (server : String → FetchOutcome) : Nat → Option String → BatchRun
  | _, none => ⟨[], 0, none⟩
  | 0, some u => ⟨[], 0, some u⟩
  | n + 1, some u =>
    match get_batch_step server u with
    | .halt => ⟨[], 1, none⟩
    | .yield r t next =>
      let rest := runBatch server n next
      ⟨(r, t) :: rest.pages, rest.requests + 1, rest.remaining⟩

/-- One result row, as produced by `.to_dict('records')`: column name
paired with the cell's text. -/
abbrev Row := List (String × String)

/-- Modelled from the documented behaviour of the external call
`pd.read_csv(StringIO(text), sep='\t').to_dict('records')` (source line 90;
pandas itself is outside this repository): blank lines are skipped
(`skip_blank_lines`); with no content at all `read_csv` raises
`EmptyDataError`; otherwise the first line names the columns, each further
line is one record, a row with more fields than the header raises
`ParserError`, and missing trailing fields are filled with NaN (rendered
here as `""`). -/
def parse_tsv (text : String) : Except Unit (List Row) :=
  let lines := (splitOnChar '\n' text.data).filter (fun l => l ≠ [])
  match lines with
  | [] => .error ()
  | header :: body =>
    let hs := splitOnChar '\t' header
    body.mapM (fun line =>
      let fs := splitOnChar '\t' line
      if hs.length < fs.length then .error ()
      else
        .ok ((hs.zip (fs ++ List.replicate (hs.length - fs.length) [])).map
          (fun p => (String.mk p.1, String.mk p.2))))

/-- The row-accumulation loop of `_query` (source lines 87-96), fuelled like
`runBatch`: pages are pulled from `get_batch` one at a time, each body is
parsed and its rows appended; a parse exception propagates to the caller
(`.error`), loop termination returns the accumulated rows (`.ok`). -/
def query_go (server : String → FetchOutcome) : Nat → Option String → Except Unit (List Row)
  | _, none => .ok []
  | 0, some _ => .ok []
  | n + 1, some u =>
    match get_batch_step server u with
    | .halt => .ok []
    | .yield r _ next =>
      match parse_tsv r.text with
      | .error e => .error e
      | .ok rows =>
        match query_go server n next with
        | .error e => .error e
        | .ok more => .ok (rows ++ more)

/-- `query` on an already-built URL: run the pagination loop with the given
fuel and accumulate parsed rows. -/
def query_run (server : String → FetchOutcome) (fuel : Nat) (url : String) :
    Except Unit (List Row) :=
  query_go server fuel (some url)

/-- The construction parameters of `UniProtKBAPIConnection.__init__`
(source lines 18-34).  `status_forcelist = none` models the Python default
argument `None`; `backoff_factor` only scales the sleep between retries and
is not part of any observable value in this embedding, so it is omitted. -/
structure ConnConfig where
  base_url : String
  total_retries : Nat
  status_forcelist : Option (List Nat)
  format : String
  batch_size : Nat
deriving DecidableEq

/-- The connection built with every argument left at its default. -/
def defaultConfig : ConnConfig :=
  ⟨"https://rest.uniprot.org/uniprotkb/search", 5, none, "tsv", 500⟩

/-- Source lines 28-29: `if status_forcelist is None:
status_forcelist = [500, 502, 503, 504]`. -/
def effective_forcelist (c : ConnConfig) : List Nat :=
  c.status_forcelist.getD [500, 502, 503, 504]

/-- The maximum number of HTTP attempts the mounted transport makes for one
URL.  urllib3's `Retry(total=n)` counts *retries beyond the first attempt*:
the request is reissued while `total` stays nonnegative after decrementing,
so up to `n + 1` attempts happen before `MaxRetryError`. -/
def max_attempts (c : ConnConfig) : Nat := c.total_retries + 1

/-- The retry loop of the transport mounted in `_connect` (source lines
31, 38-45), for retryable-status handling: `reply i` is the response the
server gives to attempt `i` at this URL.  A status in the forcelist
consumes one unit of retry `budget` (raising `MaxRetryError` when the
budget is exhausted, carried as `.error requests`); any other status is
returned to the caller together with the number of requests issued. -/
def retry_get (reply : Nat → Response) (forcelist : List Nat) :
    Nat → Nat → Except Nat (Response × Nat)
  | budget, attempt =>
    let r := reply attempt
    if r.status ∈ forcelist then
      match budget with
      | 0 => .error (attempt + 1)
      | b + 1 => retry_get reply forcelist b (attempt + 1)
    else .ok (r, attempt + 1)

/-- The session with the retry adapter mounted, as the pagination loop sees
it: one `get(u)` either produces the final response or raises after the
retries are exhausted. -/
def transport (replies : String → Nat → Response) (forcelist : List Nat)
    (total : Nat) : String → FetchOutcome :=
  fun u =>
    match retry_get (replies u) forcelist total 0 with
    | .ok (r, _) => .ok r
    | .error _ => .exn

/-- Python `dict` construction `{'query': q, 'format': f, 'size': s,
**kwargs}`: keys of `base` keep their position but are overridden by a
matching key of `extras`; keys of `extras` not in `base` follow in order. -/
def dictMerge (base extras : List (String × String)) : List (String × String) :=
  base.map (fun p =>
      match lookupKV extras p.1 with
      | some v => (p.1, v)
      | none => p)
    ++ extras.filter (fun e => (lookupKV base e.1).isNone)

/-- The parameter dict built by `_query` (source line 84). -/
def query_params (c : ConnConfig) (q : String) (extras : List (String × String)) :
    List (String × String) :=
  dictMerge [("query", q), ("format", c.format), ("size", toString c.batch_size)] extras

/-- Source line 85: `url = self.base_url + '?' + '&'.join([f'{k}={v}' ...])`.
No percent-encoding of any kind is applied. -/
def query_url (c : ConnConfig) (q : String) (extras : List (String × String)) :
    String :=
  String.mk (c.base_url.data ++ '?' ::
    intercalateChar '&'
      ((query_params c q extras).map (fun p => p.1.data ++ '=' :: p.2.data)))

/-- The full `query` entry point: build the URL from the construction
parameters, then run the pagination loop. -/
def query (c : ConnConfig) (server : String → FetchOutcome) (fuel : Nat)
    (q : String) (extras : List (String × String)) : Except Unit (List Row) :=
  query_run server fuel (query_url c q extras)

/-- Modelled from the spec: the query-string half of a URL, i.e. everything
after the first `?` (what `urllib.parse.urlparse(url).query` yields for a
fragment-free URL).  Used only on the spec side of the round-trip claim;
the repository itself never parses URLs. -/
def url_query_part (url : String) : String :=
  match splitOnChar '?' url.data with
  | [] => ""
  | _ :: rest => String.mk (intercalateChar '?' rest)

/-- Modelled from the spec: parsing a query string back into key/value
pairs, following `urllib.parse.parse_qsl` with default arguments — split on
`&`, split each pair at the first `=`, skip chunks with no `=` and pairs
with an empty value.  Percent-decoding and `+` decoding are omitted; the
round-trip theorems therefore restrict to values free of `%` and `+`,
where `parse_qsl` performs no decoding. -/
def parse_qs_pair (kv : List Char) : Option (String × String) :=
  match splitOnChar '=' kv with
  | [] => none
  | [_] => none
  | k :: vs =>
    let v := intercalateChar '=' vs
    if v = [] then none else some (String.mk k, String.mk v)

/-- Split of the whole query string into pairs; see `parse_qs_pair`. -/
def parse_qs (s : String) : List (String × String) :=
  (splitOnChar '&' s.data).filterMap parse_qs_pair

/-- `chainB server u pages` holds when, starting from URL `u`, the server
produces exactly the successful pages `pages` (each with its
`x-total-results` value), consecutive pages linked by the `Link` header and
the last page carrying no matching next link. -/
def chainB (server : String → FetchOutcome) : String → List (Response × String) → Bool
  | _, [] => false
  | u, [(r, t)] => decide (get_batch_step server u = .yield r t none)
  | u, (r, t) :: q :: rest =>
    match get_batch_step server u with
    | .yield r' t' (some u') =>
      decide (r' = r) && decide (t' = t) && chainB server u' (q :: rest)
    | _ => false

/-- Parse each batch body in order, as the `for` loop of `_query` does
(source lines 88-91); the first parse exception aborts the whole call. -/
def parsePages : List (Response × String) → Except Unit (List (List Row))
  | [] => .ok []
  | p :: rest =>
    match parse_tsv p.1.text with
    | .error e => .error e
    | .ok rows =>
      match parsePages rest with
      | .error e => .error e
      | .ok more => .ok (rows :: more)

/-- The URL the `get_batch` loop holds after `n` iterations, starting from
`cur` (`none` once the loop has ended, by falsy URL or by exception). -/
def urlAt (server : String → FetchOutcome) : Nat → Option String → Option String
  | 0, cur => cur
  | _ + 1, none => none
  | n + 1, some u =>
    match get_batch_step server u with
    | .halt => none
    | .yield _ _ next => urlAt server n next

/-- The loop-ending condition at URL `u`: the iteration raises (and the
`except` clause breaks), or it yields a page whose headers produce no
matching next link. -/
def stepEnds (server : String → FetchOutcome) (u : String) : Prop :=
  get_batch_step server u = .halt ∨
    ∃ r t, get_batch_step server u = .yield r t none

/-- The `get_batch` loop, started at `u0`, terminates within some finite
number of iterations. -/
def batch_terminates (server : String → FetchOutcome) (u0 : String) : Prop :=
  ∃ n, (runBatch server n (some u0)).remaining = none

/-! Concrete fixtures used by the witness theorems. -/

/-- A successful first page: two data rows and a next link. -/
def pageOne : Response :=
  ⟨200, [("x-total-results", "3"), ("Link", "<https://next.page/2>; rel=\"next\"")],
   "Entry\tMass\nP1\t100\nP2\t200\n"⟩

/-- The rows of `pageOne` as parsed by `parse_tsv`. -/
def pageOneRows : List Row :=
  [[("Entry", "P1"), ("Mass", "100")], [("Entry", "P2"), ("Mass", "200")]]

/-- A server where page 1 succeeds and its next link answers 404. -/
def errServer : String → FetchOutcome := fun u =>
  if u = "https://start/1" then .ok pageOne
  else if u = "https://next.page/2" then .ok ⟨404, [], "Bad Request"⟩
  else .exn

/-- A server where page 1 succeeds and its next link answers 200 without an
`x-total-results` header. -/
def noTotalServer : String → FetchOutcome := fun u =>
  if u = "https://start/1" then .ok pageOne
  else if u = "https://next.page/2"
    then .ok ⟨200, [], "Entry\tMass\nP3\t300\n"⟩
  else .exn

/-- A successful final page: one data row and no `Link` header. -/
def pageTwo : Response :=
  ⟨200, [("x-total-results", "3")], "Entry\tMass\nP3\t300\n"⟩

/-- The rows of `pageTwo` as parsed by `parse_tsv`. -/
def pageTwoRows : List Row := [[("Entry", "P3"), ("Mass", "300")]]

/-- A server with a two-page chain: `pageOne`, then the final `pageTwo`. -/
def chainServer : String → FetchOutcome := fun u =>
  if u = "https://start/1" then .ok pageOne
  else if u = "https://next.page/2" then .ok pageTwo
  else .exn

/-- A server whose every response is successful and carries a next link
(pointing back to the same URL). -/
def loopServer : String → FetchOutcome := fun _ =>
  .ok ⟨200, [("x-total-results", "1"), ("Link", "<https://loop>; rel=\"next\"")],
    "Entry\nP1\n"⟩

/-- A server whose single page succeeds with an empty body. -/
def emptyBodyServer : String → FetchOutcome := fun u =>
  if u = "https://start/1" then .ok ⟨200, [("x-total-results", "0")], ""⟩
  else .exn

/-- A server answering every attempt at every URL with 503. -/
def badReplies : String → Nat → Response := fun _ _ => ⟨503, [], ""⟩

/-- A server answering 503 to the first two attempts at any URL and
succeeding from the third attempt on. -/
def flakyReplies : String → Nat → Response := fun _ i =>
  if i < 2 then ⟨503, [], ""⟩ else pageTwo

/-! ## Basic unfolding lemmas for the pagination loop -/

theorem parsePages_cons_err {p : Response × String} {rest : List (Response × String)}
    {e : Unit} (hx : parse_tsv p.1.text = .error e) :
    parsePages (p :: rest) = .error e := by
  simp [parsePages, hx]

theorem parsePages_cons_rest_err {p : Response × String}
    {rest : List (Response × String)} {rows : List Row} {e : Unit}
    (hx : parse_tsv p.1.text = .ok rows) (hy : parsePages rest = .error e) :
    parsePages (p :: rest) = .error e := by
  simp [parsePages, hx, hy]

theorem parsePages_cons_ok {p : Response × String}
    {rest : List (Response × String)} {rows : List Row} {more : List (List Row)}
    (hx : parse_tsv p.1.text = .ok rows) (hy : parsePages rest = .ok more) :
    parsePages (p :: rest) = .ok (rows :: more) := by
  simp [parsePages, hx, hy]

theorem runBatch_none (server : String → FetchOutcome) (n : Nat) :
    runBatch server n none = ⟨[], 0, none⟩ := by
  cases n <;> rfl

theorem runBatch_halt {server : String → FetchOutcome} {u : String} (n : Nat)
    (h : get_batch_step server u = .halt) :
    runBatch server (n + 1) (some u) = ⟨[], 1, none⟩ := by
  simp [runBatch, h]

theorem runBatch_yield {server : String → FetchOutcome} {u : String}
    {r : Response} {t : String} {next : Option String} (n : Nat)
    (h : get_batch_step server u = .yield r t next) :
    runBatch server (n + 1) (some u) =
      ⟨(r, t) :: (runBatch server n next).pages,
       (runBatch server n next).requests + 1,
       (runBatch server n next).remaining⟩ := by
  simp [runBatch, h]

theorem query_go_none (server : String → FetchOutcome) (n : Nat) :
    query_go server n none = .ok [] := by
  cases n <;> rfl

theorem query_go_halt {server : String → FetchOutcome} {u : String} (n : Nat)
    (h : get_batch_step server u = .halt) :
    query_go server (n + 1) (some u) = .ok [] := by
  simp [query_go, h]

theorem query_go_yield {server : String → FetchOutcome} {u : String}
    {r : Response} {t : String} {next : Option String} {rows more : List Row}
    (n : Nat) (h : get_batch_step server u = .yield r t next)
    (hp : parse_tsv r.text = .ok rows)
    (hm : query_go server n next = .ok more) :
    query_go server (n + 1) (some u) = .ok (rows ++ more) := by
  simp [query_go, h, hp, hm]

/-- Shared shape of claims C1 and C9: one successful page followed by a
loop-ending iteration produces exactly the first page's rows, two GET
requests, and a normal (non-raising) return. -/
theorem one_page_then_halt {server : String → FetchOutcome} {u1 u2 : String}
    {r1 : Response} {t1 : String} {rows1 : List Row} {fuel : Nat}
    (h1 : get_batch_step server u1 = .yield r1 t1 (some u2))
    (h2 : get_batch_step server u2 = .halt)
    (hp : parse_tsv r1.text = .ok rows1)
    (hf : 2 ≤ fuel) :
    query_run server fuel u1 = .ok rows1 ∧
      (runBatch server fuel (some u1)).pages = [(r1, t1)] ∧
      (runBatch server fuel (some u1)).requests = 2 := by
  obtain ⟨k, rfl⟩ : ∃ k, fuel = k + 1 + 1 := ⟨fuel - 2, by omega⟩
  have hq2 : query_go server (k + 1) (some u2) = .ok [] := query_go_halt k h2
  have hb2 : runBatch server (k + 1) (some u2) = ⟨[], 1, none⟩ := runBatch_halt k h2
  refine ⟨?_, ?_, ?_⟩
  · have := query_go_yield (k + 1) h1 hp hq2
    simpa [query_run] using this
  · rw [runBatch_yield (k + 1) h1, hb2]
  · rw [runBatch_yield (k + 1) h1, hb2]

/-- C1: if, after page 1 succeeded, fetching page 2 yields a non-retryable
HTTP error status (any code for which `raise_for_status` raises, e.g. a
4xx), then the pagination aborts there — exactly two requests are issued —
and `query` returns normally with exactly page 1's rows: not an empty
table, not a larger set, and no exception reaches the caller. -/
theorem C1_nonretryable_error_keeps_rows_so_far
    {server : String → FetchOutcome} {u1 u2 : String}
    {r1 r2 : Response} {t1 : String} {rows1 : List Row} {fuel : Nat}
    (h1 : get_batch_step server u1 = .yield r1 t1 (some u2))
    (h2 : server u2 = .ok r2)
    (h2e : raise_for_status_raises r2.status = true)
    (hp : parse_tsv r1.text = .ok rows1)
    (hf : 2 ≤ fuel) :
    query_run server fuel u1 = .ok rows1 ∧
      (runBatch server fuel (some u1)).pages = [(r1, t1)] ∧
      (runBatch server fuel (some u1)).requests = 2 :=
  one_page_then_halt h1 (by simp [get_batch_step, h2, h2e]) hp hf

/-- C1 witness: a concrete server whose page 2 answers 404 after a
successful two-row page 1. -/
theorem C1_nonretryable_error_keeps_rows_so_far_witness :
    query_run errServer 2 "https://start/1" = .ok pageOneRows ∧
      (runBatch errServer 2 (some "https://start/1")).pages = [(pageOne, "3")] ∧
      (runBatch errServer 2 (some "https://start/1")).requests = 2 :=
  @C1_nonretryable_error_keeps_rows_so_far
    errServer "https://start/1" "https://next.page/2"
    pageOne ⟨404, [], "Bad Request"⟩ "3" pageOneRows 2
    (by decide) (by decide) (by decide) (by decide) (by decide)

/-- C9: if a page's HTTP request succeeds with a non-error status but the
response has no `x-total-results` header, the `KeyError` raised before the
`yield` ends the pagination there: that page's rows are discarded, the
rows accumulated from earlier pages are still returned, and no further
page is requested. -/
theorem C9_missing_total_header_discards_page
    {server : String → FetchOutcome} {u1 u2 : String}
    {r1 r2 : Response} {t1 : String} {rows1 : List Row} {fuel : Nat}
    (h1 : get_batch_step server u1 = .yield r1 t1 (some u2))
    (h2 : server u2 = .ok r2)
    (h2s : raise_for_status_raises r2.status = false)
    (hm : lookupKV r2.headers "x-total-results" = none)
    (hp : parse_tsv r1.text = .ok rows1)
    (hf : 2 ≤ fuel) :
    query_run server fuel u1 = .ok rows1 ∧
      (runBatch server fuel (some u1)).pages = [(r1, t1)] ∧
      (runBatch server fuel (some u1)).requests = 2 :=
  one_page_then_halt h1 (by simp [get_batch_step, h2, h2s, hm]) hp hf

/-- C9 witness: a concrete server whose page 2 is a 200 response carrying
rows but no `x-total-results` header; only page 1's rows come back. -/
theorem C9_missing_total_header_discards_page_witness :
    query_run noTotalServer 2 "https://start/1" = .ok pageOneRows ∧
      (runBatch noTotalServer 2 (some "https://start/1")).pages = [(pageOne, "3")] ∧
      (runBatch noTotalServer 2 (some "https://start/1")).requests = 2 :=
  @C9_missing_total_header_discards_page
    noTotalServer "https://start/1" "https://next.page/2"
    pageOne ⟨200, [], "Entry\tMass\nP3\t300\n"⟩ "3" pageOneRows 2
    (by decide) (by decide) (by decide) (by decide) (by decide) (by decide)

/-- C2: for every chain of N successful pages linked by next-page links
(the last one without a matching link), `query` returns the concatenation
of the pages' parsed rows in page-arrival order — each page's rows kept in
their within-page order — and the loop issues exactly N GET requests.  The
single-page case is the chain of length one. -/
theorem C2_chain_concatenates_pages_in_order
    {server : String → FetchOutcome} {pages : List (Response × String)} :
    ∀ {u : String} {rowss : List (List Row)} {fuel : Nat},
    chainB server u pages = true →
    parsePages pages = .ok rowss →
    pages.length ≤ fuel →
    query_run server fuel u = .ok rowss.flatten ∧
      (runBatch server fuel (some u)).pages = pages ∧
      (runBatch server fuel (some u)).requests = pages.length := by
  induction pages with
  | nil =>
    intro u rowss fuel hc _ _
    simp [chainB] at hc
  | cons p rest ih =>
    intro u rowss fuel hc hp hf
    obtain ⟨r, t⟩ := p
    simp only [List.length_cons] at hf
    obtain ⟨k, rfl⟩ : ∃ k, fuel = k + 1 := ⟨fuel - 1, by omega⟩
    cases rest with
    | nil =>
      simp only [chainB, decide_eq_true_eq] at hc
      have hpt : ∃ rows, parse_tsv r.text = .ok rows ∧ rowss = [rows] := by
        cases hx : parse_tsv r.text with
        | error e => rw [parsePages_cons_err hx] at hp; exact absurd hp (by simp)
        | ok rows =>
          rw [parsePages_cons_ok hx (show parsePages [] = .ok [] from rfl)] at hp
          exact ⟨rows, rfl, (Except.ok.inj hp).symm⟩
      obtain ⟨rows, hx, rfl⟩ := hpt
      refine ⟨?_, ?_, ?_⟩
      · have := query_go_yield k hc hx (query_go_none server k)
        simpa [query_run] using this
      · rw [runBatch_yield k hc, runBatch_none]
      · rw [runBatch_yield k hc, runBatch_none]
        simp
    | cons q rest' =>
      rw [chainB] at hc
      cases hstep : get_batch_step server u with
      | halt => rw [hstep] at hc; simp at hc
      | yield r' t' next =>
        rw [hstep] at hc
        cases next with
        | none => simp at hc
        | some u' =>
          simp only [Bool.and_eq_true, decide_eq_true_eq] at hc
          obtain ⟨⟨hr, ht⟩, hchain⟩ := hc
          rw [hr, ht] at hstep
          have hpt : ∃ rows more, parse_tsv r.text = .ok rows ∧
              parsePages (q :: rest') = .ok more ∧ rowss = rows :: more := by
            cases hx : parse_tsv r.text with
            | error e => rw [parsePages_cons_err hx] at hp; exact absurd hp (by simp)
            | ok rows =>
              cases hy : parsePages (q :: rest') with
              | error e =>
                rw [parsePages_cons_rest_err hx hy] at hp
                exact absurd hp (by simp)
              | ok more =>
                rw [parsePages_cons_ok hx hy] at hp
                exact ⟨rows, more, rfl, rfl, (Except.ok.inj hp).symm⟩
          obtain ⟨rows, more, hx, hy, rfl⟩ := hpt
          have hrec := @ih u' more k hchain hy
            (by simp only [List.length_cons] at hf ⊢; omega)
          refine ⟨?_, ?_, ?_⟩
          · have := query_go_yield k hstep hx hrec.1
            simpa [query_run] using this
          · rw [runBatch_yield k hstep, hrec.2.1]
          · rw [runBatch_yield k hstep, hrec.2.2]
            simp

/-- C4: evaluating the code at the failing input — a single successful
(200) page whose body is empty.  `pd.read_csv` raises `EmptyDataError`
on an empty input, nothing in `query` catches it, so the call raises
instead of producing a well-formed (empty) table as the spec requires. -/
theorem C4_empty_body_raises_instead_of_empty_rows :
    query_run emptyBodyServer 1 "https://start/1" = .error () := by decide

/-! ## The retry transport (claims C6 and C7) -/

theorem retry_get_all_bad {reply : Nat → Response} {fl : List Nat} :
    ∀ (b a : Nat), (∀ i, i ≤ b → (reply (a + i)).status ∈ fl) →
      retry_get reply fl b a = .error (a + b + 1) := by
  intro b
  induction b with
  | zero =>
    intro a h
    have h0 := h 0 (Nat.le_refl 0)
    rw [Nat.add_zero] at h0
    simp [retry_get, h0]
  | succ b ihb =>
    intro a h
    have h0 := h 0 (Nat.zero_le _)
    rw [Nat.add_zero] at h0
    have hrec := ihb (a + 1) (fun i hi => by
      have := h (i + 1) (Nat.succ_le_succ hi)
      rwa [show a + (i + 1) = a + 1 + i by omega] at this)
    have harith : a + 1 + b + 1 = a + (b + 1) + 1 := by omega
    simp only [retry_get, h0, if_pos]
    rw [hrec, harith]

theorem retry_get_success {reply : Nat → Response} {fl : List Nat} :
    ∀ (f a b : Nat), f ≤ b →
      (∀ i, i < f → (reply (a + i)).status ∈ fl) →
      (reply (a + f)).status ∉ fl →
      retry_get reply fl b a = .ok (reply (a + f), a + f + 1) := by
  intro f
  induction f with
  | zero =>
    intro a b _ _ hgood
    rw [Nat.add_zero] at hgood
    cases b <;> simp [retry_get, hgood]
  | succ f ihf =>
    intro a b hfb hbad hgood
    obtain ⟨b', rfl⟩ : ∃ b', b = b' + 1 := ⟨b - 1, by omega⟩
    have h0 := hbad 0 (by omega)
    rw [Nat.add_zero] at h0
    have hrec := ihf (a + 1) b' (by omega)
      (fun i hi => by
        have := hbad (i + 1) (by omega)
        rwa [show a + (i + 1) = a + 1 + i by omega] at this)
      (by rwa [show a + 1 + f = a + (f + 1) by omega])
    have harith : a + 1 + f = a + (f + 1) := by omega
    simp only [retry_get, h0, if_pos]
    rw [hrec, harith]

/-- C6: if the server answers a retryable status code on every one of the
transport's attempts — their number being the configured attempt limit,
`total_retries + 1`, since urllib3's `total` counts retries beyond the
first request — the fetch of that URL terminates as a failure
(`MaxRetryError`, surfaced to the pagination loop as an exception) after
exactly that many requests; it never retries indefinitely. -/
theorem C6_retryable_exhaustion_is_terminal_failure
    (replies : String → Nat → Response) (u : String) (c : ConnConfig)
    (h : ∀ i, i < max_attempts c → (replies u i).status ∈ effective_forcelist c) :
    retry_get (replies u) (effective_forcelist c) c.total_retries 0 =
      .error (max_attempts c) ∧
    transport replies (effective_forcelist c) c.total_retries u = .exn := by
  have hb := retry_get_all_bad c.total_retries 0
    (fun i hi => by
      rw [Nat.zero_add]
      exact h i (by simpa [max_attempts] using Nat.lt_succ_of_le hi))
  rw [Nat.zero_add] at hb
  exact ⟨hb, by simp [transport, hb]⟩

/-- C6 witness: with the default configuration (5 retries, so 6 attempts)
and a server that always answers 503, the fetch fails after 6 requests. -/
theorem C6_retryable_exhaustion_is_terminal_failure_witness :
    retry_get (badReplies "https://any") (effective_forcelist defaultConfig)
        defaultConfig.total_retries 0 = .error (max_attempts defaultConfig) ∧
      transport badReplies (effective_forcelist defaultConfig)
        defaultConfig.total_retries "https://any" = .exn :=
  C6_retryable_exhaustion_is_terminal_failure badReplies "https://any"
    defaultConfig (by decide)

/-- C7: if the server answers a retryable status code `f` times with
`f` below the attempt limit and then succeeds, the fetch of that URL
succeeds, exactly `f + 1` requests are issued to it, and the pagination
loop sees only the final successful response (retries are transparent). -/
theorem C7_few_retryable_failures_then_success
    (replies : String → Nat → Response) (u : String) (c : ConnConfig) (f : Nat)
    (hf : f < max_attempts c)
    (hbad : ∀ i, i < f → (replies u i).status ∈ effective_forcelist c)
    (hgood : (replies u f).status ∉ effective_forcelist c) :
    retry_get (replies u) (effective_forcelist c) c.total_retries 0 =
      .ok (replies u f, f + 1) ∧
    transport replies (effective_forcelist c) c.total_retries u =
      .ok (replies u f) := by
  have hs := retry_get_success f 0 c.total_retries
    (by simp [max_attempts] at hf; omega)
    (fun i hi => by rw [Nat.zero_add]; exact hbad i hi)
    (by rw [Nat.zero_add]; exact hgood)
  rw [Nat.zero_add] at hs
  exact ⟨hs, by simp [transport, hs]⟩

/-- C7 witness: with the default configuration and a server that answers
503 twice and then succeeds, the fetch succeeds after exactly 3 requests
and the loop sees the successful page. -/
theorem C7_few_retryable_failures_then_success_witness :
    retry_get (flakyReplies "https://any") (effective_forcelist defaultConfig)
        defaultConfig.total_retries 0 = .ok (flakyReplies "https://any" 2, 3) ∧
      transport flakyReplies (effective_forcelist defaultConfig)
        defaultConfig.total_retries "https://any" =
        .ok (flakyReplies "https://any" 2) :=
  C7_few_retryable_failures_then_success flakyReplies "https://any"
    defaultConfig 2 (by decide) (by decide) (by decide)

/-! ## Termination structure of the pagination loop (claim C10) -/

theorem runBatch_remaining_eq_urlAt (server : String → FetchOutcome) :
    ∀ (n : Nat) (cur : Option String),
      (runBatch server n cur).remaining = urlAt server n cur := by
  intro n
  induction n with
  | zero => intro cur; cases cur <;> rfl
  | succ n ihn =>
    intro cur
    cases cur with
    | none => rfl
    | some u =>
      cases hstep : get_batch_step server u with
      | halt => rw [runBatch_halt n hstep]; simp [urlAt, hstep]
      | yield r t next => rw [runBatch_yield n hstep]; simp [urlAt, hstep, ihn]

theorem urlAt_end (server : String → FetchOutcome) :
    ∀ (n : Nat) (cur : Option String) (u : String),
      urlAt server n cur = some u → stepEnds server u →
      urlAt server (n + 1) cur = none := by
  intro n
  induction n with
  | zero =>
    intro cur u h hEnds
    cases cur with
    | none => simp [urlAt] at h
    | some u0 =>
      obtain rfl : u0 = u := by simpa [urlAt] using h
      rcases hEnds with hH | ⟨r, t, hY⟩
      · simp [urlAt, hH]
      · simp [urlAt, hY]
  | succ n ihn =>
    intro cur u h hEnds
    cases cur with
    | none => rfl
    | some u0 =>
      cases hstep : get_batch_step server u0 with
      | halt =>
        simp only [urlAt, hstep] at h
        exact Option.noConfusion h
      | yield r t next =>
        simp only [urlAt, hstep] at h ⊢
        exact ihn next u h hEnds

theorem urlAt_none_inv (server : String → FetchOutcome) :
    ∀ (n : Nat) (cur : Option String), urlAt server (n + 1) cur = none →
      urlAt server n cur = none ∨
        ∃ u, urlAt server n cur = some u ∧ stepEnds server u := by
  intro n
  induction n with
  | zero =>
    intro cur h
    cases cur with
    | none => exact .inl rfl
    | some u =>
      right
      refine ⟨u, rfl, ?_⟩
      cases hstep : get_batch_step server u with
      | halt => exact .inl hstep
      | yield r t next =>
        simp only [urlAt, hstep] at h
        cases next with
        | none => exact .inr ⟨r, t, hstep⟩
        | some v => simp [urlAt] at h
  | succ n ihn =>
    intro cur h
    cases cur with
    | none => exact .inl rfl
    | some u =>
      cases hstep : get_batch_step server u with
      | halt => left; simp [urlAt, hstep]
      | yield r t next =>
        simp only [urlAt, hstep] at h ⊢
        exact ihn next h

theorem urlAt_none_reaches_end (server : String → FetchOutcome) :
    ∀ (n : Nat) (u0 : String), urlAt server n (some u0) = none →
      ∃ k u, urlAt server k (some u0) = some u ∧ stepEnds server u := by
  intro n
  induction n with
  | zero => intro u0 h; simp [urlAt] at h
  | succ n ihn =>
    intro u0 h
    rcases urlAt_none_inv server n (some u0) h with h' | ⟨u, hu, hEnds⟩
    · exact ihn u0 h'
    · exact ⟨n, u, hu, hEnds⟩

/-- C10: `get_batch` has no upper bound on the number of pages.  The loop
terminates exactly when the trace of page URLs reaches an iteration that
raises or yields no matching next link; and against a server whose every
response succeeds and carries a matching next link, the loop is still in
the FETCHING state after any number of iterations — it fetches forever. -/
theorem C10_pagination_loop_unbounded (server : String → FetchOutcome) (u0 : String) :
    (batch_terminates server u0 ↔
      ∃ n u, urlAt server n (some u0) = some u ∧ stepEnds server u) ∧
    ((∀ u, ¬ stepEnds server u) →
      ∀ n, (runBatch server n (some u0)).remaining ≠ none) := by
  have hiff : batch_terminates server u0 ↔
      ∃ n u, urlAt server n (some u0) = some u ∧ stepEnds server u := by
    constructor
    · rintro ⟨n, hn⟩
      rw [runBatch_remaining_eq_urlAt] at hn
      exact urlAt_none_reaches_end server n u0 hn
    · rintro ⟨n, u, hu, hEnds⟩
      refine ⟨n + 1, ?_⟩
      rw [runBatch_remaining_eq_urlAt]
      exact urlAt_end server n (some u0) u hu hEnds
  refine ⟨hiff, fun hall n hn => ?_⟩
  rcases hiff.1 ⟨n, hn⟩ with ⟨k, u, _, hEnds⟩
  exact hall u hEnds

/-- C10 witness: against the self-linking `loopServer`, every response
yields a next link, so after 5 iterations the loop is still FETCHING. -/
theorem C10_pagination_loop_unbounded_witness :
    (runBatch loopServer 5 (some "https://loop")).remaining ≠ none :=
  (C10_pagination_loop_unbounded loopServer "https://loop").2
    (fun u hEnds => by
      have hstep : get_batch_step loopServer u =
          .yield ⟨200, [("x-total-results", "1"),
              ("Link", "<https://loop>; rel=\"next\"")], "Entry\nP1\n"⟩
            "1" (some "https://loop") := rfl
      rcases hEnds with hH | ⟨r, t, hY⟩
      · rw [hstep] at hH
        exact StepOut.noConfusion hH
      · rw [hstep] at hY
        injection hY with h1 h2 h3
        exact Option.noConfusion h3)
    5

/-- C2 witness: a concrete two-page chain; the result is the two pages'
rows concatenated in order, after exactly two requests. -/
theorem C2_chain_concatenates_pages_in_order_witness :
    query_run chainServer 2 "https://start/1" =
      .ok ([pageOneRows, pageTwoRows] : List (List Row)).flatten ∧
      (runBatch chainServer 2 (some "https://start/1")).pages =
        [(pageOne, "3"), (pageTwo, "3")] ∧
      (runBatch chainServer 2 (some "https://start/1")).requests =
        [(pageOne, "3"), (pageTwo, "3")].length :=
  @C2_chain_concatenates_pages_in_order chainServer [(pageOne, "3"), (pageTwo, "3")]
    "https://start/1" [pageOneRows, pageTwoRows] 2
    (by decide) (by decide) (by decide)

/-! ## Splitting and joining character lists (claims C3 and C8) -/

theorem splitOnChar_ne_nil (sep : Char) : ∀ l, splitOnChar sep l ≠ [] := by
  intro l
  induction l with
  | nil => simp [splitOnChar]
  | cons c cs ih =>
    by_cases hc : c = sep
    · simp [splitOnChar, hc]
    · cases hr : splitOnChar sep cs with
      | nil => simp [splitOnChar, hc, hr]
      | cons x xs => simp [splitOnChar, hc, hr]

theorem intercalateChar_splitOnChar (sep : Char) :
    ∀ l, intercalateChar sep (splitOnChar sep l) = l := by
  intro l
  induction l with
  | nil => rfl
  | cons c cs ih =>
    by_cases hc : c = sep
    · cases hr : splitOnChar sep cs with
      | nil => exact absurd hr (splitOnChar_ne_nil sep cs)
      | cons x xs =>
        rw [hr] at ih
        simp only [splitOnChar, if_pos hc, hr, intercalateChar, List.nil_append]
        rw [ih, hc]
    · cases hr : splitOnChar sep cs with
      | nil => exact absurd hr (splitOnChar_ne_nil sep cs)
      | cons x xs =>
        rw [hr] at ih
        cases xs with
        | nil =>
          simp only [splitOnChar, hc, if_neg hc, hr, intercalateChar] at ih ⊢
          rw [ih]
        | cons y ys =>
          simp only [splitOnChar, hc, if_neg hc, hr, intercalateChar] at ih ⊢
          rw [List.cons_append, ih]

theorem splitOnChar_of_not_mem (sep : Char) :
    ∀ l, sep ∉ l → splitOnChar sep l = [l] := by
  intro l
  induction l with
  | nil => intro _; rfl
  | cons c cs ih =>
    intro h
    have hc : c ≠ sep := fun hcc => h (hcc ▸ List.mem_cons_self c cs)
    have hcs : sep ∉ cs := fun hm => h (List.mem_cons_of_mem c hm)
    simp [splitOnChar, hc, ih hcs]

theorem splitOnChar_append_sep (sep : Char) :
    ∀ a rest, sep ∉ a →
      splitOnChar sep (a ++ sep :: rest) = a :: splitOnChar sep rest := by
  intro a
  induction a with
  | nil => intro rest _; simp [splitOnChar]
  | cons c as ih =>
    intro rest h
    have hc : c ≠ sep := fun hcc => h (hcc ▸ List.mem_cons_self c as)
    have has : sep ∉ as := fun hm => h (List.mem_cons_of_mem c hm)
    simp [splitOnChar, hc, ih rest has]

theorem splitOnChar_intercalateChar (sep : Char) :
    ∀ parts, parts ≠ [] → (∀ p ∈ parts, sep ∉ p) →
      splitOnChar sep (intercalateChar sep parts) = parts := by
  intro parts
  induction parts with
  | nil => intro h _; exact absurd rfl h
  | cons x xs ih =>
    intro _ hmem
    cases xs with
    | nil =>
      simp only [intercalateChar]
      exact splitOnChar_of_not_mem sep x (hmem x (List.mem_cons_self x []))
    | cons y ys =>
      simp only [intercalateChar]
      rw [splitOnChar_append_sep sep x _ (hmem x (List.mem_cons_self x (y :: ys)))]
      rw [ih (by simp) (fun p hp => hmem p (List.mem_cons_of_mem x hp))]

/-! ## Decimal rendering of the page size -/

theorem digitChar_isDigit : ∀ m, m < 10 → (Nat.digitChar m).isDigit = true := by
  decide

theorem toDigitsCore_chars :
    ∀ (fuel n : Nat) (acc : List Char) (ch : Char),
      ch ∈ Nat.toDigitsCore 10 fuel n acc → ch ∈ acc ∨ ch.isDigit = true := by
  intro fuel
  induction fuel with
  | zero => intro n acc ch h; exact .inl h
  | succ fuel ih =>
    intro n acc ch h
    simp only [Nat.toDigitsCore] at h
    by_cases hz : n / 10 = 0
    · rw [if_pos hz] at h
      rcases List.mem_cons.mp h with hc | hc
      · exact .inr (hc ▸ digitChar_isDigit _ (Nat.mod_lt n (by omega)))
      · exact .inl hc
    · rw [if_neg hz] at h
      rcases ih _ _ ch h with hc | hc
      · rcases List.mem_cons.mp hc with hd | hd
        · exact .inr (hd ▸ digitChar_isDigit _ (Nat.mod_lt n (by omega)))
        · exact .inl hd
      · exact .inr hc

theorem toDigitsCore_ne_nil :
    ∀ (fuel n : Nat) (acc : List Char), acc ≠ [] →
      Nat.toDigitsCore 10 fuel n acc ≠ [] := by
  intro fuel
  induction fuel with
  | zero => intro n acc h; exact h
  | succ fuel ih =>
    intro n acc h
    simp only [Nat.toDigitsCore]
    by_cases hz : n / 10 = 0
    · rw [if_pos hz]; simp
    · rw [if_neg hz]; exact ih _ _ (by simp)

theorem natToString_data (n : Nat) : (toString n).data = Nat.toDigits 10 n := rfl

theorem natToString_all_digits (n : Nat) :
    ∀ ch ∈ (toString n).data, ch.isDigit = true := by
  intro ch h
  rw [natToString_data] at h
  simp only [Nat.toDigits] at h
  rcases toDigitsCore_chars (n + 1) n [] ch h with hc | hc
  · exact absurd hc (List.not_mem_nil ch)
  · exact hc

theorem natToString_ne_nil (n : Nat) : (toString n).data ≠ [] := by
  rw [natToString_data]
  simp only [Nat.toDigits]
  cases n with
  | zero => simp [Nat.toDigitsCore]
  | succ m =>
    simp only [Nat.toDigitsCore]
    by_cases hz : (m + 1) / 10 = 0
    · rw [if_pos hz]; simp
    · rw [if_neg hz]
      exact toDigitsCore_ne_nil (m + 1) ((m + 1) / 10)
        [Nat.digitChar ((m + 1) % 10)] (by simp)

theorem natToString_not_mem (n : Nat) (ch : Char) (hch : ch.isDigit = false) :
    ch ∉ (toString n).data := by
  intro h
  rw [natToString_all_digits n ch h] at hch
  exact Bool.noConfusion hch

/-! ## Round-trip of the built URL (claims C3 and C8) -/

theorem url_query_part_mk (base enc : List Char) (hb : '?' ∉ base) :
    url_query_part (String.mk (base ++ '?' :: enc)) = String.mk enc := by
  unfold url_query_part
  rw [show (String.mk (base ++ '?' :: enc)).data = base ++ '?' :: enc from rfl]
  rw [splitOnChar_append_sep '?' base enc hb]
  simp only
  rw [intercalateChar_splitOnChar]

theorem parse_qs_pair_encoded (k v : String) (hk : '=' ∉ k.data)
    (hv : v.data ≠ []) :
    parse_qs_pair (k.data ++ '=' :: v.data) = some (k, v) := by
  unfold parse_qs_pair
  rw [splitOnChar_append_sep '=' k.data v.data hk]
  cases hs : splitOnChar '=' v.data with
  | nil => exact absurd hs (splitOnChar_ne_nil '=' v.data)
  | cons x xs =>
    simp only
    rw [← hs, intercalateChar_splitOnChar]
    simp [hv]

theorem filterMap_encoded_pairs :
    ∀ params : List (String × String),
      (∀ p ∈ params, '=' ∉ p.1.data ∧ p.2.data ≠ []) →
      List.filterMap parse_qs_pair
        (params.map (fun p => p.1.data ++ '=' :: p.2.data)) = params := by
  intro params
  induction params with
  | nil => intro _; rfl
  | cons p rest ih =>
    intro h
    obtain ⟨hkeq, hvne⟩ := h p (List.mem_cons_self p rest)
    simp only [List.map_cons, List.filterMap_cons,
      parse_qs_pair_encoded p.1 p.2 hkeq hvne]
    rw [ih (fun e he => h e (List.mem_cons_of_mem p he))]

theorem parse_qs_encode (params : List (String × String))
    (hne : params ≠ [])
    (hp : ∀ p ∈ params,
      '&' ∉ p.1.data ∧ '=' ∉ p.1.data ∧ '&' ∉ p.2.data ∧ p.2.data ≠ []) :
    parse_qs (String.mk (intercalateChar '&'
      (params.map (fun p => p.1.data ++ '=' :: p.2.data)))) = params := by
  unfold parse_qs
  rw [show (String.mk (intercalateChar '&'
      (params.map (fun p => p.1.data ++ '=' :: p.2.data)))).data
    = intercalateChar '&' (params.map (fun p => p.1.data ++ '=' :: p.2.data))
    from rfl]
  rw [splitOnChar_intercalateChar '&' _ (by simpa using hne)
    (by
      intro part hpart
      rcases List.mem_map.mp hpart with ⟨p, hpmem, rfl⟩
      obtain ⟨hk, _, hval, _⟩ := hp p hpmem
      intro hmem
      rcases List.mem_append.mp hmem with h | h
      · exact hk h
      · rcases List.mem_cons.mp h with h | h
        · exact absurd h (by decide)
        · exact hval h)]
  exact filterMap_encoded_pairs params
    (fun p hpmem => ⟨(hp p hpmem).2.1, (hp p hpmem).2.2.2⟩)

theorem lookupKV_eq_none_of_key_ne (k : String) :
    ∀ l : List (String × String), (∀ e ∈ l, e.1 ≠ k) → lookupKV l k = none := by
  intro l
  induction l with
  | nil => intro _; rfl
  | cons e rest ih =>
    intro h
    simp only [lookupKV, if_neg (h e (List.mem_cons_self e rest))]
    exact ih (fun q hq => h q (List.mem_cons_of_mem e hq))

theorem map_override_id (extras : List (String × String)) :
    ∀ base : List (String × String),
      (∀ p ∈ base, lookupKV extras p.1 = none) →
      base.map (fun p =>
        match lookupKV extras p.1 with
        | some v => (p.1, v)
        | none => p) = base := by
  intro base
  induction base with
  | nil => intro _; rfl
  | cons p rest ih =>
    intro h
    simp only [List.map_cons, h p (List.mem_cons_self p rest)]
    rw [ih (fun e he => h e (List.mem_cons_of_mem p he))]

theorem dictMerge_of_fresh (base extras : List (String × String))
    (h1 : ∀ p ∈ base, lookupKV extras p.1 = none)
    (h2 : ∀ e ∈ extras, lookupKV base e.1 = none) :
    dictMerge base extras = base ++ extras := by
  unfold dictMerge
  have hfilter : extras.filter (fun e => (lookupKV base e.1).isNone) = extras := by
    rw [List.filter_eq_self]
    intro e he
    rw [h2 e he]
    rfl
  rw [map_override_id extras base h1, hfilter]

/-- The core round-trip fact: the query string of the URL built by `_query`
parses back into exactly the parameter pairs, whenever the base URL has no
`?`, the `query` and `format` values are nonempty and `&`-free, and the
extra parameters avoid `&`, `=`-in-keys, empty values, and the three
reserved keys. -/
theorem roundtrip_core (c : ConnConfig) (q : String)
    (extras : List (String × String))
    (hb : '?' ∉ c.base_url.data)
    (hq : q.data ≠ [] ∧ '&' ∉ q.data)
    (hfmt : c.format.data ≠ [] ∧ '&' ∉ c.format.data)
    (hx : ∀ e ∈ extras, e.1 ≠ "query" ∧ e.1 ≠ "format" ∧ e.1 ≠ "size" ∧
      '&' ∉ e.1.data ∧ '=' ∉ e.1.data ∧ '&' ∉ e.2.data ∧ e.2.data ≠ []) :
    parse_qs (url_query_part (query_url c q extras)) =
      [("query", q), ("format", c.format), ("size", toString c.batch_size)]
        ++ extras := by
  have hparams : query_params c q extras =
      [("query", q), ("format", c.format), ("size", toString c.batch_size)]
        ++ extras := by
    unfold query_params
    apply dictMerge_of_fresh
    · intro p hpmem
      apply lookupKV_eq_none_of_key_ne
      intro e he
      rcases hx e he with ⟨h1q, h1f, h1s, _, _, _, _⟩
      simp only [List.mem_cons, List.not_mem_nil, or_false] at hpmem
      rcases hpmem with rfl | rfl | rfl
      · exact h1q
      · exact h1f
      · exact h1s
    · intro e he
      rcases hx e he with ⟨h1q, h1f, h1s, _, _, _, _⟩
      simp [lookupKV, Ne.symm h1q, Ne.symm h1f, Ne.symm h1s]
  unfold query_url
  rw [hparams]
  rw [url_query_part_mk c.base_url.data _ hb]
  apply parse_qs_encode
  · simp
  · intro p hpmem
    rcases List.mem_append.mp hpmem with hbase | hex
    · simp only [List.mem_cons, List.not_mem_nil, or_false] at hbase
      rcases hbase with rfl | rfl | rfl
      · exact ⟨(by decide : ('&' : Char) ∉ ("query" : String).data),
          (by decide : ('=' : Char) ∉ ("query" : String).data), hq.2, hq.1⟩
      · exact ⟨(by decide : ('&' : Char) ∉ ("format" : String).data),
          (by decide : ('=' : Char) ∉ ("format" : String).data), hfmt.2, hfmt.1⟩
      · exact ⟨(by decide : ('&' : Char) ∉ ("size" : String).data),
          (by decide : ('=' : Char) ∉ ("size" : String).data),
          natToString_not_mem c.batch_size '&' (by decide),
          natToString_ne_nil c.batch_size⟩
    · rcases hx p hex with ⟨_, _, _, hk, hke, hv, hvne⟩
      exact ⟨hk, hke, hv, hvne⟩

/-- C3 counterexample: the encoder applies no escaping at all, so a query
containing `&` — such as `a&b` — does not round-trip: the URL built from
it parses back with `query = "a"`, not the original `a&b`.  (The repo's
own UI exploits this by smuggling `&fields=...` inside the query value.) -/
theorem C3_url_roundtrip_counterexample :
    lookupKV (parse_qs (url_query_part (query_url defaultConfig "a&b" [])))
        "query" = some "a" ∧
      some "a" ≠ some "a&b" := by decide

/-- C3 (amended): the URL round-trip holds for every request whose `query`
and `format` values are nonempty and free of `&` (and, because the encoder
never percent-encodes, free of `%` and `+`, on which a standard
query-string parser would apply decoding), whose base URL contains no `?`,
and whose extra parameters avoid `&`, `=`-in-keys, empty values and the
reserved keys: parsing the built URL's query string then recovers the
original `query`, `format` and `size` values. -/
theorem C3_url_roundtrip_amended (c : ConnConfig) (q : String)
    (extras : List (String × String))
    (hb : '?' ∉ c.base_url.data)
    (hq : q.data ≠ [] ∧ '&' ∉ q.data ∧ '+' ∉ q.data ∧ '%' ∉ q.data)
    (hfmt : c.format.data ≠ [] ∧ '&' ∉ c.format.data ∧
      '+' ∉ c.format.data ∧ '%' ∉ c.format.data)
    (hx : ∀ e ∈ extras, e.1 ≠ "query" ∧ e.1 ≠ "format" ∧ e.1 ≠ "size" ∧
      '&' ∉ e.1.data ∧ '=' ∉ e.1.data ∧ '&' ∉ e.2.data ∧ e.2.data ≠ []) :
    lookupKV (parse_qs (url_query_part (query_url c q extras))) "query"
        = some q ∧
      lookupKV (parse_qs (url_query_part (query_url c q extras))) "format"
        = some c.format ∧
      lookupKV (parse_qs (url_query_part (query_url c q extras))) "size"
        = some (toString c.batch_size) := by
  rw [roundtrip_core c q extras hb ⟨hq.1, hq.2.1⟩ ⟨hfmt.1, hfmt.2.1⟩ hx]
  refine ⟨?_, ?_, ?_⟩ <;> simp [lookupKV]

/-- C3 witness: the spec's own example query (spaces, parentheses,
brackets, colons — but no `&`) round-trips together with a `fields`
passthrough parameter under the default configuration. -/
theorem C3_url_roundtrip_amended_witness :
    lookupKV (parse_qs (url_query_part (query_url defaultConfig
        "(organism_id:10090) AND (mass:[0 TO 5000])"
        [("fields", "accession,id")]))) "query"
      = some "(organism_id:10090) AND (mass:[0 TO 5000])" ∧
    lookupKV (parse_qs (url_query_part (query_url defaultConfig
        "(organism_id:10090) AND (mass:[0 TO 5000])"
        [("fields", "accession,id")]))) "format"
      = some defaultConfig.format ∧
    lookupKV (parse_qs (url_query_part (query_url defaultConfig
        "(organism_id:10090) AND (mass:[0 TO 5000])"
        [("fields", "accession,id")]))) "size"
      = some (toString defaultConfig.batch_size) :=
  C3_url_roundtrip_amended defaultConfig
    "(organism_id:10090) AND (mass:[0 TO 5000])" [("fields", "accession,id")]
    (by decide) (by decide) (by decide) (by decide)

/-- C8: a connection constructed without overrides uses `format = "tsv"`,
`batch_size = 500` and the retryable status set `{500, 502, 503, 504}`,
and the request URL the client builds from them carries the `query`,
`format` and `size` parameters with exactly these values (read back here
by parsing the URL's query string). -/
theorem C8_default_configuration (q : String)
    (hq : q.data ≠ [] ∧ '&' ∉ q.data) :
    defaultConfig.format = "tsv" ∧
      defaultConfig.batch_size = 500 ∧
      effective_forcelist defaultConfig = [500, 502, 503, 504] ∧
      lookupKV (parse_qs (url_query_part (query_url defaultConfig q [])))
          "query" = some q ∧
      lookupKV (parse_qs (url_query_part (query_url defaultConfig q [])))
          "format" = some "tsv" ∧
      lookupKV (parse_qs (url_query_part (query_url defaultConfig q [])))
          "size" = some "500" := by
  have hcore := roundtrip_core defaultConfig q [] (by decide) hq
    (by decide) (by simp)
  rw [hcore]
  refine ⟨rfl, rfl, rfl, ?_, ?_, ?_⟩
  · simp [lookupKV]
  · simp [lookupKV]
    rfl
  · simp [lookupKV]
    decide

/-! ## The greedy regex capture of `get_next_link` (claim C5) -/

theorem startsWith_iff : ∀ (p l : List Char),
    startsWith p l = true ↔ ∃ t, l = p ++ t := by
  intro p
  induction p with
  | nil => intro l; simp [startsWith]
  | cons c ps ih =>
    intro l
    cases l with
    | nil =>
      simp only [startsWith]
      constructor
      · intro h; exact Bool.noConfusion h
      · rintro ⟨t, ht⟩; exact List.noConfusion ht
    | cons d ds =>
      simp only [startsWith]
      by_cases hc : c = d
      · subst hc
        rw [if_pos rfl, ih ds]
        constructor
        · rintro ⟨t, rfl⟩; exact ⟨t, rfl⟩
        · rintro ⟨t, ht⟩
          obtain ⟨-, h2⟩ := List.cons.inj ht
          exact ⟨t, h2⟩
      · rw [if_neg hc]
        constructor
        · intro h; exact Bool.noConfusion h
        · rintro ⟨t, ht⟩
          obtain ⟨h1, -⟩ := List.cons.inj ht
          exact absurd h1.symm hc

theorem linkCapture_cons_iff (c : Char) (cs : List Char) (hc : c ≠ '\n')
    (u : List Char) :
    linkCapture (c :: cs) u ↔
      (u = [c] ∧ ∃ rest, cs = linkSuffix ++ rest) ∨
        (∃ t, u = c :: t ∧ linkCapture cs t) := by
  constructor
  · rintro ⟨hu, hnl, rest, heq⟩
    cases u with
    | nil => exact absurd rfl hu
    | cons a t =>
      obtain ⟨h1, h2⟩ := List.cons.inj heq
      subst h1
      cases t with
      | nil =>
        left
        exact ⟨rfl, rest, by simpa using h2⟩
      | cons b t' =>
        right
        refine ⟨b :: t', rfl, by simp, ?_, rest, by simpa using h2⟩
        intro hm
        exact hnl (List.mem_cons_of_mem c hm)
  · rintro (⟨rfl, rest, hrest⟩ | ⟨t, rfl, ht, hnl, rest, heq⟩)
    · exact ⟨by simp, fun hm => hc (List.mem_singleton.mp hm).symm,
        rest, by simp [hrest]⟩
    · refine ⟨by simp, ?_, rest, by simp [heq]⟩
      intro hm
      rcases List.mem_cons.mp hm with h | h
      · exact hc h.symm
      · exact hnl h

theorem capture_none_iff : ∀ cs, capture cs = none ↔ ∀ u, ¬ linkCapture cs u := by
  intro cs
  induction cs with
  | nil =>
    constructor
    · rintro - u ⟨hu, -, rest, heq⟩
      have hlen := congrArg List.length heq
      have h13 : linkSuffix.length = 13 := by decide
      have hupos : 0 < u.length := List.length_pos.mpr hu
      simp [h13] at hlen
      omega
    · intro _; rfl
  | cons c cs ih =>
    by_cases hc : c = '\n'
    · have hcc : capture (c :: cs) = none := by simp [capture, hc]
      rw [hcc]
      constructor
      · rintro - u ⟨hu, hnl, rest, heq⟩
        cases u with
        | nil => exact absurd rfl hu
        | cons a t =>
          obtain ⟨h1, -⟩ := List.cons.inj heq
          exact hnl (by rw [← h1, hc]; exact List.mem_cons_self _ _)
      · intro _; rfl
    · cases hcap : capture cs with
      | some u0 =>
        have hcc : capture (c :: cs) = some (c :: u0) := by
          simp [capture, hc, hcap]
        rw [hcc]
        constructor
        · intro h; exact Option.noConfusion h
        · intro hall
          exfalso
          have hne : ¬ ∀ u, ¬ linkCapture cs u := by
            intro hnone
            rw [← ih] at hnone
            rw [hnone] at hcap
            exact Option.noConfusion hcap
          rcases Classical.not_forall.mp hne with ⟨t, ht⟩
          have htv : linkCapture cs t := Classical.not_not.mp ht
          exact hall (c :: t)
            ((linkCapture_cons_iff c cs hc (c :: t)).mpr (.inr ⟨t, rfl, htv⟩))
      | none =>
        cases hsw : startsWith linkSuffix cs with
        | true =>
          have hcc : capture (c :: cs) = some [c] := by
            simp [capture, hc, hcap, hsw]
          rw [hcc]
          constructor
          · intro h; exact Option.noConfusion h
          · intro hall
            exfalso
            rcases (startsWith_iff linkSuffix cs).mp hsw with ⟨rest, hrest⟩
            exact hall [c]
              ((linkCapture_cons_iff c cs hc [c]).mpr (.inl ⟨rfl, rest, hrest⟩))
        | false =>
          have hcc : capture (c :: cs) = none := by
            simp [capture, hc, hcap, hsw]
          rw [hcc]
          constructor
          · rintro - u hval
            rcases (linkCapture_cons_iff c cs hc u).mp hval with
              ⟨rfl, rest, hrest⟩ | ⟨t, rfl, htv⟩
            · have : startsWith linkSuffix cs = true :=
                (startsWith_iff linkSuffix cs).mpr ⟨rest, hrest⟩
              rw [hsw] at this
              exact Bool.noConfusion this
            · exact (ih.mp hcap) t htv
          · intro _; rfl

theorem capture_some : ∀ (cs u : List Char), capture cs = some u →
    linkCapture cs u ∧ ∀ u', linkCapture cs u' → u'.length ≤ u.length := by
  intro cs
  induction cs with
  | nil => intro u h; exact Option.noConfusion h
  | cons c cs ih =>
    intro u h
    by_cases hc : c = '\n'
    · rw [show capture (c :: cs) = none from by simp [capture, hc]] at h
      exact Option.noConfusion h
    · cases hcap : capture cs with
      | some u0 =>
        rw [show capture (c :: cs) = some (c :: u0) from by
          simp [capture, hc, hcap]] at h
        obtain rfl : c :: u0 = u := Option.some.inj h
        obtain ⟨hval0, hmax0⟩ := ih u0 hcap
        refine ⟨(linkCapture_cons_iff c cs hc _).mpr (.inr ⟨u0, rfl, hval0⟩), ?_⟩
        intro u' hval'
        rcases (linkCapture_cons_iff c cs hc u').mp hval' with
          ⟨rfl, -⟩ | ⟨t, rfl, htv⟩
        · simp
        · have := hmax0 t htv
          simp only [List.length_cons]
          omega
      | none =>
        cases hsw : startsWith linkSuffix cs with
        | true =>
          rw [show capture (c :: cs) = some [c] from by
            simp [capture, hc, hcap, hsw]] at h
          obtain rfl : [c] = u := Option.some.inj h
          rcases (startsWith_iff linkSuffix cs).mp hsw with ⟨rest, hrest⟩
          refine ⟨(linkCapture_cons_iff c cs hc _).mpr
            (.inl ⟨rfl, rest, hrest⟩), ?_⟩
          intro u' hval'
          rcases (linkCapture_cons_iff c cs hc u').mp hval' with
            ⟨rfl, -⟩ | ⟨t, rfl, htv⟩
          · simp
          · exact absurd htv ((capture_none_iff cs).mp hcap t)
        | false =>
          rw [show capture (c :: cs) = none from by
            simp [capture, hc, hcap, hsw]] at h
          exact Option.noConfusion h

theorem capture_eq_some_iff (cs u : List Char) :
    capture cs = some u ↔
      linkCapture cs u ∧ ∀ u', linkCapture cs u' → u'.length ≤ u.length := by
  constructor
  · exact capture_some cs u
  · rintro ⟨hval, hmax⟩
    cases hcap : capture cs with
    | none => exact absurd hval ((capture_none_iff cs).mp hcap u)
    | some w =>
      obtain ⟨hwval, hwmax⟩ := capture_some cs w hcap
      have hlen : u.length = w.length :=
        Nat.le_antisymm (hwmax u hval) (hmax w hwval)
      obtain ⟨rest, hequ⟩ := hval.2.2
      obtain ⟨rest', heqw⟩ := hwval.2.2
      rw [List.append_assoc] at hequ heqw
      obtain ⟨huw, -⟩ :=
        List.append_inj (hequ.symm.trans heqw) hlen
      rw [huw]

/-- C5 counterexample: `LINK_REGEX` is applied with `re.match`, which only
anchors at the start of the header value, so a value with trailing content
after `rel="next"` — here `<u>; rel="next"x` — still yields a URL, even
though the value as a whole does not have the form `<URL>; rel="next"`
for any URL. -/
theorem C5_next_link_form_counterexample :
    get_next_link [("Link", "<u>; rel=\"next\"x")] = some "u" ∧
      ∀ url : String,
        ("<u>; rel=\"next\"x" : String).data ≠ '<' :: (url.data ++ linkSuffix) := by
  constructor
  · decide
  · intro url h
    have h2 := congrArg List.getLast? h
    rw [show ('<' :: (url.data ++ linkSuffix)) = ('<' :: url.data) ++ linkSuffix
      from by simp] at h2
    rw [List.getLast?_append] at h2
    rw [show linkSuffix.getLast? = some '\"' from by decide] at h2
    rw [show (("<u>; rel=\"next\"x" : String).data).getLast? = some 'x'
      from by decide] at h2
    have := Option.some.inj h2
    exact absurd this (by decide)

/-- C5 (amended): next-link extraction returns a URL exactly when the
`Link` header is present and its value *starts with* `<U>; rel="next"`
for some nonempty, newline-free `U` (trailing content after the pattern is
accepted, because the regex is matched only at the start of the value);
the returned URL is the longest such `U` (the capture group is greedy).
Absence of the header, or of any such prefix, returns nothing. -/
theorem get_next_link_of_lookup (headers : List (String × String)) (v : String)
    (h : lookupKV headers "Link" = some v) :
    get_next_link headers =
      match v.data with
      | '<' :: rest => (capture rest).map String.mk
      | _ => none := by
  simp [get_next_link, h]

theorem C5_next_link_extraction_characterized
    (headers : List (String × String)) (url : String) :
    get_next_link headers = some url ↔
      ∃ v, lookupKV headers "Link" = some v ∧
        ∃ cs, v.data = '<' :: cs ∧ linkCapture cs url.data ∧
          ∀ u', linkCapture cs u' → u'.length ≤ url.data.length := by
  cases hv : lookupKV headers "Link" with
  | none =>
    rw [show get_next_link headers = none from by simp [get_next_link, hv]]
    constructor
    · intro h; exact Option.noConfusion h
    · rintro ⟨v, hveq, -⟩; exact Option.noConfusion hveq
  | some v =>
    rw [get_next_link_of_lookup headers v hv]
    split
    case h_1 cs heq =>
      constructor
      · intro h
        rcases Option.map_eq_some'.mp h with ⟨u, hcap, hmk⟩
        obtain rfl : u = url.data := by rw [← hmk]
        obtain ⟨hval, hmax⟩ := capture_some cs url.data hcap
        exact ⟨v, rfl, cs, heq, hval, hmax⟩
      · rintro ⟨v', hveq, cs', hcs, hval, hmax⟩
        obtain rfl : v = v' := Option.some.inj hveq
        rw [heq] at hcs
        obtain ⟨-, rfl⟩ := List.cons.inj hcs
        rw [(capture_eq_some_iff cs url.data).mpr ⟨hval, hmax⟩]
        rw [Option.map_some']
    case h_2 hno =>
      constructor
      · intro h; exact Option.noConfusion h
      · rintro ⟨v', hveq, cs', hcs, -⟩
        obtain rfl : v = v' := Option.some.inj hveq
        exact (hno cs' hcs).elim

/-- C8 witness: the defaults at a concrete query. -/
theorem C8_default_configuration_witness :
    defaultConfig.format = "tsv" ∧
      defaultConfig.batch_size = 500 ∧
      effective_forcelist defaultConfig = [500, 502, 503, 504] ∧
      lookupKV (parse_qs (url_query_part (query_url defaultConfig
          "reviewed:true" []))) "query" = some "reviewed:true" ∧
      lookupKV (parse_qs (url_query_part (query_url defaultConfig
          "reviewed:true" []))) "format" = some "tsv" ∧
      lookupKV (parse_qs (url_query_part (query_url defaultConfig
          "reviewed:true" []))) "size" = some "500" :=
  C8_default_configuration "reviewed:true" (by decide)

end UniProt
